import Mathlib

/-!
# CircularBuffer (include/circular-buffer.hpp)

A shallow embedding of the class template `CircularBuffer<T, N>` and a
verification of its specification against it.

Modelling conventions.

* `std::array<T, N>` is a block of exactly `N` slots: `Fin N → T`.  The
  constructor does not initialise it, nor the `double sum` member, so the
  embedded constructor takes the values these members happen to hold.
* `std::size_t` members are natural numbers.  An instantiable `std::array<T, N>`
  has `N ≤ PTRDIFF_MAX < 2^63`; in a state with `head < N` and `count ≤ N`, as
  every state the member functions produce is, every sum the code forms is of
  two values `≤ N`, so no sum wraps at `2^64` and the embedding is exact.  A state
  with `head ≥ N` is outside what the embedding describes: there `head + 1` or
  `head + index` may wrap in the code, and no theorem below speaks of the
  contents or indices reached from such a state.
* `double` is embedded as `ℚ` (exact arithmetic).
* A `T &` is the physical slot it designates (a `Fin N`); writing through it is
  `CircularBuffer.assign`.
* Unchecked `buffer[i]` with `i ≥ N` and `x % N` with `N = 0` are undefined
  behaviour in C++; the embedding reports them as `Fault.undefined` instead of
  inventing a result.
-/

/-- The two ways a member function can fail to return: the `std::out_of_range`
thrown by `operator[]`, and undefined behaviour. -/
inductive Fault where
  | out_of_range
  | undefined
deriving DecidableEq

/-- The data members of `CircularBuffer<T, N>` (lines 100-105). -/
structure CircularBuffer (T : Type) (N : Nat) where
  buffer : Fin N → T
  head : Nat
  tail : Nat
  count : Nat
  sum : ℚ

/-- The constructor `CircularBuffer()` (line 13): `head(0), tail(0), count(0)`;
`buffer` and `sum` are left as they were, here `buffer0` and `sum0`. -/
def CircularBuffer.new {T : Type} {N : Nat} (buffer0 : Fin N → T) (sum0 : ℚ) :
    CircularBuffer T N :=
  { buffer := buffer0, head := 0, tail := 0, count := 0, sum := sum0 }

/-- Member `push_back` (lines 15-34).  Returns the evicted value, if any, and the
state after the call.  The sums `head + 1` and `tail + 1` are those of the code
when `head < N` and `tail < N`. -/
def CircularBuffer.push_back {T : Type} {N : Nat} (b : CircularBuffer T N) (value : T) :
    Except Fault (Option T × CircularBuffer T N) :=
  if h : b.tail < N then
    let out : Option T := if b.count < N then none else some (b.buffer ⟨b.tail, h⟩)
    let head := if b.count < N then b.head else (b.head + 1) % N
    let buffer : Fin N → T := fun j => if j.val = b.tail then value else b.buffer j
    let tail := (b.tail + 1) % N
    let count := if b.count < N then b.count + 1 else b.count
    .ok (out, { buffer := buffer, head := head, tail := tail, count := count, sum := b.sum })
  else
    .error Fault.undefined

/-- Member `operator[]`, the non-const overload (lines 36-41): the reference it
returns, as the physical slot designated.  The sum `head + index` is that of the
code when `head < N` and `count ≤ N`. -/
def CircularBuffer.subscript_ref {T : Type} {N : Nat} (b : CircularBuffer T N) (index : Nat) :
    Except Fault (Fin N) :=
  if index ≥ b.count then
    .error Fault.out_of_range
  else if h : 0 < N then
    .ok ⟨(b.head + index) % N, Nat.mod_lt _ h⟩
  else
    .error Fault.undefined

/-- Member `operator[]`, the const overload (lines 43-48), read as a value.  The
sum `head + index` is that of the code when `head < N` and `count ≤ N`. -/
def CircularBuffer.subscript {T : Type} {N : Nat} (b : CircularBuffer T N) (index : Nat) :
    Except Fault T :=
  if index ≥ b.count then
    .error Fault.out_of_range
  else if h : 0 < N then
    .ok (b.buffer ⟨(b.head + index) % N, Nat.mod_lt _ h⟩)
  else
    .error Fault.undefined

/-- Assignment `r = x` through a reference `r` into the storage of `b`. -/
def CircularBuffer.assign {T : Type} {N : Nat} (b : CircularBuffer T N) (r : Fin N) (x : T) :
    CircularBuffer T N :=
  { b with buffer := fun j => if j = r then x else b.buffer j }

/-- Member `size` (line 50). -/
def CircularBuffer.size {T : Type} {N : Nat} (b : CircularBuffer T N) : Nat := b.count

/-- Member `get_underlying_array` (line 52). -/
def CircularBuffer.get_underlying_array {T : Type} {N : Nat} (b : CircularBuffer T N) :
    Fin N → T := b.buffer

/-- Member `mean` (lines 54-59): `sum` divided by `count` converted to `double`. -/
def CircularBuffer.mean {T : Type} {N : Nat} (b : CircularBuffer T N) : ℚ :=
  if b.count = 0 then 0 else b.sum / (b.count : ℚ)

/-- The nested class `iterator` (lines 61-95).  The member `buffer` is a
reference; `owner` is the address of the buffer referred to and `index` the
position held. -/
structure CircularBuffer.iterator where
  owner : Nat
  index : Nat
deriving DecidableEq

/-- Member `iterator::operator*` (lines 72-73): `buffer[index]`, which is the
bounds-checked `operator[]` of the buffer referred to, here `b`. -/
def CircularBuffer.iterator.deref {T : Type} {N : Nat} (it : CircularBuffer.iterator)
    (b : CircularBuffer T N) : Except Fault T :=
  b.subscript it.index

/-- Member `iterator::operator++` (lines 75-78) for capacity `N`. -/
def CircularBuffer.iterator.incr (N : Nat) (it : CircularBuffer.iterator) :
    Except Fault CircularBuffer.iterator :=
  if 0 < N then .ok { it with index := (it.index + 1) % N } else .error Fault.undefined

/-- Member `iterator::operator==` (lines 86-88). -/
def CircularBuffer.iterator.eq (it other : CircularBuffer.iterator) : Bool :=
  it.owner == other.owner && it.index == other.index

/-- Member `iterator::operator!=` (line 90). -/
def CircularBuffer.iterator.ne (it other : CircularBuffer.iterator) : Bool :=
  !(it.eq other)

/-- Member `begin` (line 97) of the buffer at address `self`. -/
def CircularBuffer.begin {T : Type} {N : Nat} (b : CircularBuffer T N) (self : Nat) :
    CircularBuffer.iterator :=
  { owner := self, index := b.head }

/-- Member `end` (line 98) of the buffer at address `self`. -/
def CircularBuffer.end {T : Type} {N : Nat} (b : CircularBuffer T N) (self : Nat) :
    Except Fault CircularBuffer.iterator :=
  if 0 < N then .ok { owner := self, index := (b.head + b.count) % N }
  else .error Fault.undefined

/-- Pushing the values of a list one by one with `push_back`: the values the
calls return, in call order, and the final state. -/
def push_all {T : Type} {N : Nat} :
    CircularBuffer T N → List T → Except Fault (List (Option T) × CircularBuffer T N)
  | b, [] => .ok ([], b)
  | b, v :: vs =>
    match b.push_back v with
    | .error e => .error e
    | .ok (out, b1) =>
      match push_all b1 vs with
      | .error e => .error e
      | .ok (outs, b2) => .ok (out :: outs, b2)

/-- The loop `for (it = first; it != last; ++it) visit(*it)` over buffer `b`,
run for at most `fuel` iterations: `none` when the fuel runs out, otherwise the
values visited in order, or the fault that stopped the loop. -/
def walk {T : Type} {N : Nat} (b : CircularBuffer T N) (last : CircularBuffer.iterator) :
    Nat → CircularBuffer.iterator → Option (Except Fault (List T))
  | 0, it => if it.ne last then none else some (.ok [])
  | fuel + 1, it =>
    if it.ne last then
      match it.deref b with
      | .error e => some (.error e)
      | .ok v =>
        match it.incr N with
        | .error e => some (.error e)
        | .ok it1 =>
          match walk b last fuel it1 with
          | none => none
          | some (.error e) => some (.error e)
          | some (.ok vs) => some (.ok (v :: vs))
    else some (.ok [])

/-- The range-based loop `for (auto &x : buf)` over the buffer `b` at address
`self`: `walk` from `begin()` to `end()`. -/
def iterate {T : Type} {N : Nat} (b : CircularBuffer T N) (self fuel : Nat) :
    Option (Except Fault (List T)) :=
  match b.end self with
  | .ok last => walk b last fuel (b.begin self)
  | .error e => some (.error e)

/-- The buffer of capacity 3 after `push_back` of 2, 4, 6, 8, when the storage
and `sum` held zeros at construction: slots `[8, 4, 6]`, `head == tail == 1`,
`count == 3`. -/
def after_2468 : CircularBuffer Int 3 :=
  { buffer := fun j =>
      if j.val = 0 then 8 else if j.val = 2 then 6 else if j.val = 1 then 4
      else if j.val = 0 then 2 else 0,
    head := 1, tail := 1, count := 3, sum := 0 }

/-- A buffer of capacity 3 that holds one value, 7, in slot 1: `head == 1`,
`tail == 2`, `count == 1`. -/
def one_of_three : CircularBuffer Int 3 :=
  { buffer := fun j => if j.val = 1 then 7 else 0, head := 1, tail := 2, count := 1, sum := 0 }

/-- The index invariants the specification documents for the data model:
`head` and `tail` inside the storage, `count ≤ N`, `tail == head` when
`count == N`, and `head == tail` when `count == 0`. -/
def documented_invariants {T : Type} {N : Nat} (b : CircularBuffer T N) : Prop :=
  b.head < N ∧ b.tail < N ∧ b.count ≤ N ∧ (b.count = N → b.tail = b.head) ∧
    (b.count = 0 → b.head = b.tail)

instance {T : Type} {N : Nat} (b : CircularBuffer T N) : Decidable (documented_invariants b) := by
  unfold documented_invariants
  infer_instance

/-- The invariant the code maintains beyond the documented ones:
`tail == (head + count) mod N`, and `head == 0` while `count < N`. -/
def ring_invariant {T : Type} {N : Nat} (b : CircularBuffer T N) : Prop :=
  b.tail = (b.head + b.count) % N ∧ (b.count < N → b.head = 0)

instance {T : Type} {N : Nat} (b : CircularBuffer T N) : Decidable (ring_invariant b) := by
  unfold ring_invariant
  infer_instance

/-- `Holds b H`: the buffer `b` is in the state that pushing the values of `H`
into an empty buffer leaves: the members `count`, `tail`, `head` as functions of
the number of pushes, and the last `count` values of `H` in their slots. -/
structure Holds {T : Type} {N : Nat} (b : CircularBuffer T N) (H : List T) : Prop where
  count_eq : b.count = min H.length N
  tail_eq : b.tail = H.length % N
  head_eq : b.head = (H.length - b.count) % N
  slot : ∀ k, H.length - b.count ≤ k → k < H.length → ∀ h : k % N < N,
    H[k]? = some (b.buffer ⟨k % N, h⟩)

/-! ## The state after a history of pushes -/

/-- Two numbers in a window of width `N` with the same residue are equal. -/
theorem eq_of_mod_eq_of_window {N a b : Nat} (hab : a ≤ b) (hw : b < a + N)
    (hm : a % N = b % N) : a = b := by
  have h0 : (b - a) % N = 0 := Nat.sub_mod_eq_zero_of_mod_eq hm.symm
  have hlt : b - a < N := by omega
  rw [Nat.mod_eq_of_lt hlt] at h0
  omega

/-- A freshly constructed buffer holds the empty history. -/
theorem holds_new {T : Type} {N : Nat} (buffer0 : Fin N → T) (sum0 : ℚ) :
    Holds (CircularBuffer.new buffer0 sum0) [] := by
  refine ⟨by simp [CircularBuffer.new], by simp [CircularBuffer.new],
    by simp [CircularBuffer.new], ?_⟩
  intro k _ hk
  simp at hk

/-- One `push_back` from a state that holds `H`: the call returns, evicting
nothing while fewer than `N` values were pushed and the value pushed `N` calls
earlier afterwards, and the new state holds `H ++ [v]`. -/
theorem push_back_holds {T : Type} {N : Nat} (hN : 0 < N) {b : CircularBuffer T N}
    {H : List T} (hb : Holds b H) (v : T) :
    ∃ b1, b.push_back v = .ok (if H.length < N then none else H[H.length - N]?, b1) ∧
      Holds b1 (H ++ [v]) ∧ b1.sum = b.sum := by
  obtain ⟨hc, ht, hh, hs⟩ := hb
  have htl : b.tail < N := by rw [ht]; exact Nat.mod_lt _ hN
  by_cases hlt : H.length < N
  · have hcount : b.count = H.length := by rw [hc]; omega
    have hcN : b.count < N := by omega
    refine ⟨{ buffer := fun j => if j.val = b.tail then v else b.buffer j, head := b.head,
              tail := (b.tail + 1) % N, count := b.count + 1, sum := b.sum }, ?_, ?_, ?_⟩
    · simp only [CircularBuffer.push_back, dif_pos htl, if_pos hcN, if_pos hlt]
    · refine ⟨?_, ?_, ?_, ?_⟩
      · simp; omega
      · simp [ht]
      · simp [hh, hcount]
      · intro k _ hk hkN
        simp only [List.length_append, List.length_singleton] at hk
        have hkk : k % N = k := Nat.mod_eq_of_lt (by omega)
        have htt : b.tail = H.length := by rw [ht]; exact Nat.mod_eq_of_lt hlt
        by_cases hkt : k = H.length
        · subst hkt
          simp [hkk, htt]
        · have hk2 : k < H.length := by omega
          have := hs k (by omega) hk2 hkN
          simp only [hkk, htt, if_neg hkt]
          rw [List.getElem?_append_left hk2]
          simpa [hkk] using this
    · rfl
  · have hcount : b.count = N := by rw [hc]; omega
    have hcN : ¬ b.count < N := by omega
    have hx : (H.length - N) % N = H.length % N := by
      conv_rhs => rw [show H.length = (H.length - N) + N by omega]
      simp
    refine ⟨{ buffer := fun j => if j.val = b.tail then v else b.buffer j,
              head := (b.head + 1) % N, tail := (b.tail + 1) % N, count := b.count,
              sum := b.sum }, ?_, ?_, ?_⟩
    · simp only [CircularBuffer.push_back, dif_pos htl, if_neg hcN, if_neg hlt]
      have := hs (H.length - N) (by omega) (by omega) (Nat.mod_lt _ hN)
      simp only [hx] at this
      simp only [this, ht]
    · refine ⟨?_, ?_, ?_, ?_⟩
      · simp [hcN, hcount]; omega
      · simp [ht]
      · simp only [if_neg hcN, hh, hcount, List.length_append, List.length_singleton]
        rw [Nat.mod_add_mod]
        congr 1
        omega
      · intro k hk1 hk hkN
        simp only [List.length_append, List.length_singleton, if_neg hcN, hcount] at hk hk1
        by_cases hkt : k = H.length
        · subst hkt
          simp [ht]
        · have hk2 : k < H.length := by omega
          have hne : k % N ≠ b.tail := by
            intro he
            rw [ht] at he
            exact hkt (eq_of_mod_eq_of_window (by omega) (by omega) he)
          have := hs k (by omega) hk2 hkN
          simp only [if_neg hne]
          rw [List.getElem?_append_left hk2]
          exact this
    · rfl

/-- Pushing a list `L` from a state that holds `H`: every call returns, the
`j`-th call evicts nothing while fewer than `N` values were pushed before it and
the value pushed `N` calls earlier afterwards, the final state holds `H ++ L`,
and `sum` is the value it had at the start. -/
theorem push_all_holds {T : Type} {N : Nat} (hN : 0 < N) (L : List T) :
    ∀ (b : CircularBuffer T N) (H : List T), Holds b H →
      ∃ outs b1, push_all b L = .ok (outs, b1) ∧ Holds b1 (H ++ L) ∧ b1.sum = b.sum ∧
        outs.length = L.length ∧
        ∀ j, j < L.length →
          outs[j]? = some (if H.length + j < N then none else (H ++ L)[H.length + j - N]?) := by
  induction L with
  | nil =>
    intro b H hb
    exact ⟨[], b, rfl, by simpa using hb, rfl, rfl, by simp⟩
  | cons v vs ih =>
    intro b H hb
    obtain ⟨b1, h1, hb1, hs1⟩ := push_back_holds hN hb v
    obtain ⟨outs, b2, h2, hb2, hs2, hlen, houts⟩ := ih b1 (H ++ [v]) hb1
    refine ⟨(if H.length < N then none else H[H.length - N]?) :: outs, b2, ?_, ?_, ?_, ?_, ?_⟩
    · simp only [push_all, h1, h2]
    · simpa using hb2
    · rw [hs2, hs1]
    · simp [hlen]
    · intro j hj
      cases j with
      | zero =>
        by_cases hlt : H.length < N
        · simp [hlt]
        · simp only [List.getElem?_cons_zero, Nat.add_zero, if_neg hlt]
          rw [List.getElem?_append_left (by omega)]
      | succ j =>
        have hj2 : j < vs.length := by simpa using hj
        have := houts j hj2
        simp only [List.length_append, List.length_singleton, List.append_assoc,
          List.singleton_append] at this
        rw [List.getElem?_cons_succ, this]
        have e : H.length + 1 + j = H.length + (j + 1) := by omega
        rw [e]

/-- Reading logical position `i` in a state that holds `H`, for `i` below
`count`: the read returns the value `count - i` pushes back in `H`. -/
theorem subscript_holds {T : Type} {N : Nat} (hN : 0 < N) {b : CircularBuffer T N}
    {H : List T} (hb : Holds b H) (i : Nat) (hi : i < b.count) :
    ∃ x, b.subscript i = .ok x ∧ H[H.length - b.count + i]? = some x := by
  obtain ⟨hc, _, hh, hs⟩ := hb
  have hle : b.count ≤ H.length := by rw [hc]; omega
  have hm : (b.head + i) % N = (H.length - b.count + i) % N := by
    rw [hh, Nat.mod_add_mod]
  refine ⟨b.buffer ⟨(b.head + i) % N, Nat.mod_lt _ hN⟩, ?_, ?_⟩
  · simp only [CircularBuffer.subscript, ge_iff_le, if_neg (Nat.not_le.mpr hi), dif_pos hN]
  · have := hs (H.length - b.count + i) (by omega) (by omega) (Nat.mod_lt _ hN)
    simp only [hm]
    exact this

/-- Both overloads of `operator[]` throw exactly when the index is not below
`count`. -/
theorem subscript_out_of_range_iff {T : Type} {N : Nat} (b : CircularBuffer T N) (index : Nat) :
    (b.subscript index = .error Fault.out_of_range ↔ b.count ≤ index) ∧
    (b.subscript_ref index = .error Fault.out_of_range ↔ b.count ≤ index) := by
  by_cases h : index ≥ b.count
  · simp [CircularBuffer.subscript, CircularBuffer.subscript_ref, h, ge_iff_le.mp h]
  · have h2 : ¬ b.count ≤ index := h
    by_cases hN : 0 < N
    · simp [CircularBuffer.subscript, CircularBuffer.subscript_ref, h2, hN]
    · simp [CircularBuffer.subscript, CircularBuffer.subscript_ref, h2, hN]

/-- The state a run of `push_all` from a freshly constructed buffer ends in is
the one `Holds` describes. -/
theorem holds_of_push_all {T : Type} {N : Nat} (hN : 0 < N) {L : List T} {buffer0 : Fin N → T}
    {sum0 : ℚ} {outs : List (Option T)} {b : CircularBuffer T N}
    (h : push_all (CircularBuffer.new buffer0 sum0) L = .ok (outs, b)) :
    Holds b L ∧ b.sum = sum0 := by
  obtain ⟨outs1, b1, h1, hb1, hs1, _, _⟩ :=
    push_all_holds hN L (CircularBuffer.new buffer0 sum0) [] (holds_new buffer0 sum0)
  rw [h1] at h
  cases h
  exact ⟨by simpa using hb1, hs1⟩

/-- Two logical positions below `count ≤ N` that map to the same physical slot
are the same position. -/
theorem slot_injective {N head i j : Nat} (hi : i < N) (hj : j < N)
    (h : (head + i) % N = (head + j) % N) : i = j := by
  rcases Nat.le_total i j with hij | hij
  · have := eq_of_mod_eq_of_window (N := N) (a := head + i) (b := head + j)
      (by omega) (by omega) h
    omega
  · have := eq_of_mod_eq_of_window (N := N) (a := head + j) (b := head + i)
      (by omega) (by omega) h.symm
    omega

/-! ## The claims -/

/-- C1: for every capacity `N > 0` and every list `L` pushed one by one with
`push_back` into a freshly constructed buffer, all calls return, `size()` is
`min |L| N`, and for every `i < size()` `operator[](i)` returns
`L[|L| - size() + i]`: the contents are the last `min |L| N` values of `L` in
insertion order. -/
theorem push_back_keeps_last {T : Type} (N : Nat) (hN : 0 < N) (L : List T)
    (buffer0 : Fin N → T) (sum0 : ℚ) :
    ∃ outs b, push_all (CircularBuffer.new buffer0 sum0) L = .ok (outs, b) ∧
      b.size = min L.length N ∧
      ∀ i, i < b.size → ∃ x, b.subscript i = .ok x ∧ L[L.length - b.size + i]? = some x := by
  obtain ⟨outs, b, h, hb, _, _, _⟩ :=
    push_all_holds hN L (CircularBuffer.new buffer0 sum0) [] (holds_new buffer0 sum0)
  rw [List.nil_append] at hb
  exact ⟨outs, b, h, hb.count_eq, fun i hi => subscript_holds hN hb i hi⟩

theorem push_back_keeps_last_witness :
    0 < 3 ∧ ∃ outs b,
      push_all (CircularBuffer.new (fun _ => (0 : Int)) 0 : CircularBuffer Int 3) [2, 4, 6, 8]
        = .ok (outs, b) ∧
      b.size = min ([2, 4, 6, 8] : List Int).length 3 ∧
      ∀ i, i < b.size → ∃ x, b.subscript i = .ok x ∧
        ([2, 4, 6, 8] : List Int)[([2, 4, 6, 8] : List Int).length - b.size + i]? = some x :=
  ⟨by decide, push_back_keeps_last 3 (by decide) [2, 4, 6, 8] (fun _ => 0) 0⟩

/-- C2: FIFO eviction.  For every capacity `N > 0` and every list `L` pushed
into a freshly constructed buffer, all calls return, one result per call; each
of the first `N` calls returns no evicted value; every later call (0-based
position `j ≥ N`, the `k = j + 1`-th call with `k > N`) returns the value pushed
`N` calls earlier, `L[j - N]` (the `(k - N)`-th pushed value); and when exactly
`N + 1` values are pushed, the last call returns the first value and afterwards
`operator[](0)` returns the second value. -/
theorem push_back_fifo {T : Type} (N : Nat) (hN : 0 < N) (L : List T)
    (buffer0 : Fin N → T) (sum0 : ℚ) :
    ∃ outs b, push_all (CircularBuffer.new buffer0 sum0) L = .ok (outs, b) ∧
      outs.length = L.length ∧
      (∀ j, j < L.length → j < N → outs[j]? = some none) ∧
      (∀ j, j < L.length → N ≤ j → ∃ x, outs[j]? = some (some x) ∧ L[j - N]? = some x) ∧
      (L.length = N + 1 →
        ∃ v1 v2, L[0]? = some v1 ∧ L[1]? = some v2 ∧ outs[N]? = some (some v1) ∧
          b.subscript 0 = .ok v2) := by
  obtain ⟨outs, b, h, hb, _, hlen, houts⟩ :=
    push_all_holds hN L (CircularBuffer.new buffer0 sum0) [] (holds_new buffer0 sum0)
  simp only [List.nil_append, List.length_nil, Nat.zero_add] at hb houts
  have hlate : ∀ j, j < L.length → N ≤ j →
      ∃ x, outs[j]? = some (some x) ∧ L[j - N]? = some x := by
    intro j hj hjN
    have hlt : j - N < L.length := by omega
    refine ⟨L.get ⟨j - N, hlt⟩, ?_, ?_⟩
    · rw [houts j hj, if_neg (by omega), List.getElem?_eq_getElem hlt]
      rfl
    · rw [List.getElem?_eq_getElem hlt]
      rfl
  refine ⟨outs, b, h, hlen, ?_, hlate, ?_⟩
  · intro j hj hjN
    rw [houts j hj, if_pos hjN]
  · intro hL
    obtain ⟨v1, hv1, hv1L⟩ := hlate N (by omega) (Nat.le_refl N)
    have hcount : b.count = N := by rw [hb.count_eq, hL]; omega
    obtain ⟨v2, hv2, hv2L⟩ := subscript_holds hN hb 0 (by omega)
    refine ⟨v1, v2, ?_, ?_, hv1, hv2⟩
    · simpa using hv1L
    · rw [hcount, hL] at hv2L
      simpa using hv2L

theorem push_back_fifo_witness :
    0 < 3 ∧ ∃ outs b,
      push_all (CircularBuffer.new (fun _ => (0 : Int)) 0 : CircularBuffer Int 3) [2, 4, 6, 8]
        = .ok (outs, b) ∧
      outs.length = ([2, 4, 6, 8] : List Int).length ∧
      (∀ j, j < ([2, 4, 6, 8] : List Int).length → j < 3 → outs[j]? = some none) ∧
      (∀ j, j < ([2, 4, 6, 8] : List Int).length → 3 ≤ j →
        ∃ x, outs[j]? = some (some x) ∧ ([2, 4, 6, 8] : List Int)[j - 3]? = some x) ∧
      (([2, 4, 6, 8] : List Int).length = 3 + 1 →
        ∃ v1 v2, ([2, 4, 6, 8] : List Int)[0]? = some v1 ∧
          ([2, 4, 6, 8] : List Int)[1]? = some v2 ∧ outs[3]? = some (some v1) ∧
          b.subscript 0 = .ok v2) :=
  ⟨by decide, push_back_fifo 3 (by decide) [2, 4, 6, 8] (fun _ => 0) 0⟩

/-- C3: order preservation.  For every capacity `N > 0` and every list
`v0..vk` with `k < N` (at most `N` values) pushed into a freshly constructed
buffer, all calls return and `operator[](i)` succeeds and returns `v_i` for every
`0 ≤ i ≤ k`. -/
theorem push_back_order_preserved {T : Type} (N : Nat) (hN : 0 < N) (L : List T)
    (hL : L.length ≤ N) (buffer0 : Fin N → T) (sum0 : ℚ) :
    ∃ outs b, push_all (CircularBuffer.new buffer0 sum0) L = .ok (outs, b) ∧
      ∀ i, i < L.length → ∃ x, b.subscript i = .ok x ∧ L[i]? = some x := by
  obtain ⟨outs, b, h, hb, _, _, _⟩ :=
    push_all_holds hN L (CircularBuffer.new buffer0 sum0) [] (holds_new buffer0 sum0)
  rw [List.nil_append] at hb
  have hcount : b.count = L.length := by rw [hb.count_eq]; omega
  refine ⟨outs, b, h, fun i hi => ?_⟩
  obtain ⟨x, hx, hxL⟩ := subscript_holds hN hb i (by omega)
  refine ⟨x, hx, ?_⟩
  rw [hcount] at hxL
  simpa using hxL

theorem push_back_order_preserved_witness :
    (0 < 3 ∧ ([2, 4, 6] : List Int).length ≤ 3) ∧ ∃ outs b,
      push_all (CircularBuffer.new (fun _ => (0 : Int)) 0 : CircularBuffer Int 3) [2, 4, 6]
        = .ok (outs, b) ∧
      ∀ i, i < ([2, 4, 6] : List Int).length →
        ∃ x, b.subscript i = .ok x ∧ ([2, 4, 6] : List Int)[i]? = some x :=
  ⟨⟨by decide, by decide⟩,
    push_back_order_preserved 3 (by decide) [2, 4, 6] (by decide) (fun _ => 0) 0⟩

/-- C4: capacity bound.  For every capacity `N` and every list `L`, after each
number `m` of `push_back` calls applied to a freshly constructed buffer,
`size() ≤ N`.  For `N > 0` every call returns; for `N = 0` the buffer stays as
constructed while nothing is pushed, and the first call is undefined behaviour,
so there is no state after it. -/
theorem size_le_capacity {T : Type} (N : Nat) (L : List T) (m : Nat)
    (buffer0 : Fin N → T) (sum0 : ℚ) :
    (∃ outs b, push_all (CircularBuffer.new buffer0 sum0) (L.take m) = .ok (outs, b) ∧
        b.size ≤ N) ∨
      (N = 0 ∧ L.take m ≠ [] ∧
        push_all (CircularBuffer.new buffer0 sum0) (L.take m) = .error Fault.undefined) := by
  by_cases hN : 0 < N
  · left
    obtain ⟨outs, b, h, hb, _, _, _⟩ :=
      push_all_holds hN (L.take m) (CircularBuffer.new buffer0 sum0) [] (holds_new buffer0 sum0)
    refine ⟨outs, b, h, ?_⟩
    show b.count ≤ N
    rw [hb.count_eq]
    exact Nat.min_le_right _ _
  · have h0 : N = 0 := by omega
    subst h0
    cases hl : L.take m with
    | nil => exact Or.inl ⟨[], _, rfl, Nat.le_refl 0⟩
    | cons v vs =>
      right
      refine ⟨rfl, by simp, ?_⟩
      simp [push_all, CircularBuffer.push_back]

/-- C5: out-of-range access.  For every buffer state and every index, each
overload of `operator[]` throws the out-of-range error if and only if
`index ≥ size()`; so an index with `size() ≤ index < N` fails, and every index
fails on an empty buffer. -/
theorem subscript_fails_iff_ge_size {T : Type} {N : Nat} (b : CircularBuffer T N) (index : Nat) :
    (b.subscript index = .error Fault.out_of_range ↔ index ≥ b.size) ∧
    (b.subscript_ref index = .error Fault.out_of_range ↔ index ≥ b.size) ∧
    (b.size ≤ index ∧ index < N → b.subscript index = .error Fault.out_of_range) ∧
    (b.size = 0 → b.subscript index = .error Fault.out_of_range) := by
  have h := subscript_out_of_range_iff b index
  refine ⟨h.1, h.2, fun hi => h.1.mpr hi.1, fun h0 => h.1.mpr ?_⟩
  show b.count ≤ index
  have : b.count = 0 := h0
  omega

/-- C9: empty-state contract.  For every capacity `N`, a freshly constructed
buffer has `size() == 0`, `operator[](i)` throws the out-of-range error for every
index `i`, and `mean()` returns 0; and `mean()` returns 0 in every state with
`count == 0`, whatever `sum` holds. -/
theorem empty_state_contract {T : Type} (N : Nat) (buffer0 : Fin N → T) (sum0 : ℚ) :
    (CircularBuffer.new buffer0 sum0).size = 0 ∧
    (∀ i, (CircularBuffer.new buffer0 sum0).subscript i = .error Fault.out_of_range ∧
      (CircularBuffer.new buffer0 sum0).subscript_ref i = .error Fault.out_of_range) ∧
    (CircularBuffer.new buffer0 sum0).mean = 0 ∧
    ∀ b : CircularBuffer T N, b.count = 0 → b.mean = 0 := by
  refine ⟨rfl, fun i => ?_, ?_, fun b hb => ?_⟩
  · have h := subscript_out_of_range_iff (CircularBuffer.new buffer0 sum0) i
    exact ⟨h.1.mpr (Nat.zero_le i), h.2.mpr (Nat.zero_le i)⟩
  · simp [CircularBuffer.mean, CircularBuffer.new]
  · simp [CircularBuffer.mean, hb]

/-- C8 as stated fails: the constructor has no failure path, and with `N == 0`
it produces a buffer value of capacity 0 (an empty one). -/
theorem zero_capacity_constructed :
    ∃ b : CircularBuffer Int 0,
      CircularBuffer.new (fun i => i.elim0) 0 = b ∧ b.size = 0 ∧ b.head = 0 ∧ b.tail = 0 :=
  ⟨_, rfl, rfl, rfl, rfl⟩

/-- C8, amended: constructing a buffer with `N == 0` raises no error; it yields
an empty buffer with `head == tail == count == 0`, as for every other capacity,
on which `operator[]` throws the out-of-range error for every index and
`push_back` is undefined behaviour. -/
theorem zero_capacity_not_rejected {T : Type} (buffer0 : Fin 0 → T) (sum0 : ℚ) :
    (CircularBuffer.new buffer0 sum0).size = 0 ∧
    (CircularBuffer.new buffer0 sum0).head = 0 ∧
    (CircularBuffer.new buffer0 sum0).tail = 0 ∧
    (∀ i, (CircularBuffer.new buffer0 sum0).subscript i = .error Fault.out_of_range) ∧
    (∀ v, (CircularBuffer.new buffer0 sum0).push_back v = .error Fault.undefined) := by
  refine ⟨rfl, rfl, rfl, fun i => ?_, fun v => ?_⟩
  · exact (subscript_out_of_range_iff (CircularBuffer.new buffer0 sum0) i).1.mpr (Nat.zero_le i)
  · simp [CircularBuffer.push_back]

/-- C10: in-place mutation through indexed access.  For every buffer reached
from a freshly constructed one by `push_back` calls (`N > 0`), every
`i < size()` and every value `x`: `operator[](i)` returns a reference, and
assigning `x` through it leaves `count`, `head` and `tail` unchanged, leaves
`operator[](j)` unchanged for every `j < size()` with `j ≠ i`, and makes
`operator[](i)` return `x`. -/
theorem assign_through_subscript {T : Type} (N : Nat) (hN : 0 < N) (L : List T)
    (buffer0 : Fin N → T) (sum0 : ℚ) (outs : List (Option T)) (b : CircularBuffer T N)
    (hreach : push_all (CircularBuffer.new buffer0 sum0) L = .ok (outs, b))
    (i : Nat) (hi : i < b.size) (x : T) :
    ∃ r, b.subscript_ref i = .ok r ∧
      (b.assign r x).count = b.count ∧ (b.assign r x).head = b.head ∧
      (b.assign r x).tail = b.tail ∧
      (∀ j, j < b.size → j ≠ i → (b.assign r x).subscript j = b.subscript j) ∧
      (b.assign r x).subscript i = .ok x := by
  have hb := (holds_of_push_all hN hreach).1
  have hcN : b.count ≤ N := by rw [hb.count_eq]; exact Nat.min_le_right _ _
  have hi2 : ¬ i ≥ b.count := Nat.not_le.mpr hi
  refine ⟨⟨(b.head + i) % N, Nat.mod_lt _ hN⟩, ?_, rfl, rfl, rfl, ?_, ?_⟩
  · simp only [CircularBuffer.subscript_ref, if_neg hi2, dif_pos hN]
  · intro j hj hji
    have hj2 : ¬ j ≥ b.count := Nat.not_le.mpr hj
    have hne : (b.head + j) % N ≠ (b.head + i) % N := fun he =>
      hji (slot_injective (Nat.lt_of_lt_of_le hj hcN) (Nat.lt_of_lt_of_le hi hcN) he)
    simp [CircularBuffer.subscript, CircularBuffer.assign, hj2, hN, hne]
  · simp [CircularBuffer.subscript, CircularBuffer.assign, hi2, hN]

theorem assign_through_subscript_witness :
    (0 < 3 ∧
      push_all (CircularBuffer.new (fun _ => (0 : Int)) 0 : CircularBuffer Int 3) [2, 4, 6, 8]
        = .ok ([none, none, none, some 2], after_2468) ∧ 1 < after_2468.size) ∧
    ∃ r, after_2468.subscript_ref 1 = .ok r ∧
      (after_2468.assign r 7).count = after_2468.count ∧
      (after_2468.assign r 7).head = after_2468.head ∧
      (after_2468.assign r 7).tail = after_2468.tail ∧
      (∀ j, j < after_2468.size → j ≠ 1 →
        (after_2468.assign r 7).subscript j = after_2468.subscript j) ∧
      (after_2468.assign r 7).subscript 1 = .ok 7 :=
  ⟨⟨by decide, rfl, by decide⟩,
    assign_through_subscript 3 (by decide) [2, 4, 6, 8] (fun _ => (0 : Int)) 0
      [none, none, none, some 2] after_2468 (by rfl) 1 (by decide) 7⟩

/-- C6 fails on the code: with `N = 3`, after `push_back` of 2, 4, 6, 8 the buffer
is full (`size() == 3`, `operator[](0) == 4`), `begin()` and `end()` both hold
index 1 and compare equal, so the loop from `begin()` to `end()` ends at once
having visited nothing, whatever the fuel; and `*begin()` is `operator[](1)`,
which is 6 and not the oldest value 4. -/
theorem iterate_full_buffer_visits_nothing (self : Nat) :
    push_all (CircularBuffer.new (fun _ => (0 : Int)) 0 : CircularBuffer Int 3) [2, 4, 6, 8]
      = .ok ([none, none, none, some 2], after_2468) ∧
    after_2468.size = 3 ∧
    after_2468.subscript 0 = .ok 4 ∧ after_2468.subscript 1 = .ok 6 ∧
    after_2468.subscript 2 = .ok 8 ∧
    after_2468.begin self = { owner := self, index := 1 } ∧
    after_2468.end self = .ok { owner := self, index := 1 } ∧
    (after_2468.begin self).eq { owner := self, index := 1 } = true ∧
    (∀ fuel, iterate after_2468 self fuel = some (.ok [])) ∧
    (after_2468.begin self).deref after_2468 = .ok 6 := by
  refine ⟨rfl, rfl, rfl, rfl, rfl, rfl, rfl, ?_, ?_, rfl⟩
  · simp [CircularBuffer.iterator.eq, CircularBuffer.begin, after_2468]
  · intro fuel
    cases fuel <;>
      simp [iterate, walk, CircularBuffer.end, CircularBuffer.begin,
        CircularBuffer.iterator.ne, CircularBuffer.iterator.eq, after_2468]

/-- C7 fails on the code: `push_back` never writes `sum`, so `mean()` is the
value `sum` held at construction divided by `count`, whatever was pushed.  With
`N = 3`, after pushing 2, 4, 6 and after pushing 2, 4, 6, 8 `mean()` is the same
number `sum0 / 3`; it is not 4 in the first state and 6 in the second for any
`sum0`, and with `sum0 = 0` it is 0 in both. -/
theorem mean_ignores_pushed_values (buffer0 : Fin 3 → Int) (sum0 : ℚ) :
    ∃ o1 b1 o2 b2,
      push_all (CircularBuffer.new buffer0 sum0) [2, 4, 6] = .ok (o1, b1) ∧
      push_all (CircularBuffer.new buffer0 sum0) [2, 4, 6, 8] = .ok (o2, b2) ∧
      b1.size = 3 ∧ b2.size = 3 ∧ o2[3]? = some (some 2) ∧
      b1.mean = sum0 / 3 ∧ b2.mean = sum0 / 3 ∧ ¬ (b1.mean = 4 ∧ b2.mean = 6) := by
  obtain ⟨o1, b1, h1, hb1, hs1, _, _⟩ :=
    push_all_holds (by decide : 0 < 3) [2, 4, 6] (CircularBuffer.new buffer0 sum0) []
      (holds_new buffer0 sum0)
  obtain ⟨o2, b2, h2, hb2, hs2, _, ho2⟩ :=
    push_all_holds (by decide : 0 < 3) [2, 4, 6, 8] (CircularBuffer.new buffer0 sum0) []
      (holds_new buffer0 sum0)
  have hc1 : b1.count = 3 := by rw [hb1.count_eq]; rfl
  have hc2 : b2.count = 3 := by rw [hb2.count_eq]; rfl
  have hm1 : b1.mean = sum0 / 3 := by
    simp [CircularBuffer.mean, hc1, hs1, CircularBuffer.new]
  have hm2 : b2.mean = sum0 / 3 := by
    simp [CircularBuffer.mean, hc2, hs2, CircularBuffer.new]
  refine ⟨o1, b1, o2, b2, h1, h2, hc1, hc2, ?_, hm1, hm2, ?_⟩
  · have := ho2 3 (by decide)
    simpa using this
  · rintro ⟨h4, h6⟩
    rw [hm1] at h4
    rw [hm2, h4] at h6
    norm_num at h6

/-- C11: capacity 1.  For `N = 1` and every list `L` pushed into a freshly
constructed buffer, all calls return, one result per call; the first call
returns no evicted value; every later call returns exactly the value passed to
the call just before it; `size()` is 0 before the first push and 1 after every
push. -/
theorem capacity_one_evicts_previous {T : Type} (L : List T) (buffer0 : Fin 1 → T) (sum0 : ℚ) :
    (CircularBuffer.new buffer0 sum0).size = 0 ∧
    ∃ outs b, push_all (CircularBuffer.new buffer0 sum0) L = .ok (outs, b) ∧
      outs.length = L.length ∧
      (0 < L.length → outs[0]? = some none) ∧
      (∀ j, 0 < j → j < L.length → ∃ x, outs[j]? = some (some x) ∧ L[j - 1]? = some x) ∧
      (∀ m, 0 < m → m ≤ L.length →
        ∃ outs1 b1, push_all (CircularBuffer.new buffer0 sum0) (L.take m) = .ok (outs1, b1) ∧
          b1.size = 1) := by
  refine ⟨rfl, ?_⟩
  obtain ⟨outs, b, h, _, _, hlen, houts⟩ :=
    push_all_holds (by decide : 0 < 1) L (CircularBuffer.new buffer0 sum0) []
      (holds_new buffer0 sum0)
  simp only [List.nil_append, List.length_nil, Nat.zero_add] at houts
  refine ⟨outs, b, h, hlen, ?_, ?_, ?_⟩
  · intro h0
    rw [houts 0 h0, if_pos (by decide)]
  · intro j hj0 hj
    have hlt : j - 1 < L.length := by omega
    refine ⟨L.get ⟨j - 1, hlt⟩, ?_, ?_⟩
    · rw [houts j hj, if_neg (by omega), List.getElem?_eq_getElem hlt]
      rfl
    · rw [List.getElem?_eq_getElem hlt]
      rfl
  · intro m hm0 hm
    obtain ⟨outs1, b1, h1, hb1, _, _, _⟩ :=
      push_all_holds (by decide : 0 < 1) (L.take m) (CircularBuffer.new buffer0 sum0) []
        (holds_new buffer0 sum0)
    refine ⟨outs1, b1, h1, ?_⟩
    show b1.count = 1
    rw [hb1.count_eq]
    simp only [List.nil_append, List.length_take]
    omega

/-- C12: no transition from full back to not-full.  For every buffer state with
`count ≤ N` and every value, either `push_back` returns, and then `size()` has
not decreased, `size() == N` before implies `size() == N` after, and the buffer
is full after the call exactly when `size()` was `N - 1` or `N` before it; or
`tail` is outside the storage and the call is undefined behaviour. -/
theorem push_back_size_monotone {T : Type} {N : Nat} (b : CircularBuffer T N) (v : T)
    (hc : b.count ≤ N) :
    (∃ out b1, b.push_back v = .ok (out, b1) ∧ b.size ≤ b1.size ∧
        (b.size = N → b1.size = N) ∧ (b1.size = N ↔ b.size = N - 1 ∨ b.size = N)) ∨
      (N ≤ b.tail ∧ b.push_back v = .error Fault.undefined) := by
  by_cases ht : b.tail < N
  · left
    by_cases hlt : b.count < N
    · refine ⟨none,
        { buffer := fun j => if j.val = b.tail then v else b.buffer j,
          head := b.head, tail := (b.tail + 1) % N, count := b.count + 1, sum := b.sum },
        ?_, ?_, ?_, ?_⟩
      · simp only [CircularBuffer.push_back, dif_pos ht, if_pos hlt]
      · show b.count ≤ b.count + 1
        omega
      · intro h
        have : b.count = N := h
        omega
      · show b.count + 1 = N ↔ b.count = N - 1 ∨ b.count = N
        omega
    · refine ⟨some (b.buffer ⟨b.tail, ht⟩),
        { buffer := fun j => if j.val = b.tail then v else b.buffer j,
          head := (b.head + 1) % N, tail := (b.tail + 1) % N, count := b.count, sum := b.sum },
        ?_, ?_, ?_, ?_⟩
      · simp only [CircularBuffer.push_back, dif_pos ht, if_neg hlt]
      · exact Nat.le_refl _
      · exact fun h => h
      · show b.count = N ↔ b.count = N - 1 ∨ b.count = N
        omega
  · right
    refine ⟨by omega, ?_⟩
    simp only [CircularBuffer.push_back, dif_neg ht]

theorem push_back_size_monotone_witness :
    after_2468.count ≤ 3 ∧
    ((∃ out b1, after_2468.push_back 10 = .ok (out, b1) ∧ after_2468.size ≤ b1.size ∧
        (after_2468.size = 3 → b1.size = 3) ∧
        (b1.size = 3 ↔ after_2468.size = 3 - 1 ∨ after_2468.size = 3)) ∨
      (3 ≤ after_2468.tail ∧ after_2468.push_back 10 = .error Fault.undefined)) :=
  ⟨by decide, push_back_size_monotone after_2468 10 (by decide)⟩

/-- What `push_back` does on a full buffer whose `tail` is inside the storage. -/
theorem push_back_of_full {T : Type} {N : Nat} (b : CircularBuffer T N) (v : T)
    (ht : b.tail < N) (hc : ¬ b.count < N) :
    b.push_back v = .ok (some (b.buffer ⟨b.tail, ht⟩),
      { buffer := fun j => if j.val = b.tail then v else b.buffer j,
        head := (b.head + 1) % N, tail := (b.tail + 1) % N, count := b.count, sum := b.sum }) := by
  simp only [CircularBuffer.push_back, dif_pos ht, if_neg hc]

/-- What `push_back` does on a buffer that is not full and whose `tail` is inside
the storage. -/
theorem push_back_of_not_full {T : Type} {N : Nat} (b : CircularBuffer T N) (v : T)
    (ht : b.tail < N) (hc : b.count < N) :
    b.push_back v = .ok (none,
      { buffer := fun j => if j.val = b.tail then v else b.buffer j,
        head := b.head, tail := (b.tail + 1) % N, count := b.count + 1, sum := b.sum }) := by
  simp only [CircularBuffer.push_back, dif_pos ht, if_pos hc]

/-- Reading a logical position below `count` when `N > 0`. -/
theorem subscript_of_lt {T : Type} {N : Nat} (hN : 0 < N) (b : CircularBuffer T N) (i : Nat)
    (hi : i < b.count) :
    b.subscript i = .ok (b.buffer ⟨(b.head + i) % N, Nat.mod_lt _ hN⟩) := by
  simp only [CircularBuffer.subscript, ge_iff_le, if_neg (Nat.not_le.mpr hi), dif_pos hN]

/-- C13: insertion into a full buffer.  For every `N > 0` and every state with
`count == N` and `tail == head < N`, `push_back(v)` returns the element that
`operator[](0)` returned before the call, advances `head` to `(head + 1) mod N`,
keeps `count == N`, and afterwards `operator[](i)` equals the previous
`operator[](i + 1)` for every `i < N - 1` and `operator[](N - 1) == v`. -/
theorem push_back_full_shifts {T : Type} {N : Nat} (hN : 0 < N) (b : CircularBuffer T N) (v : T)
    (hc : b.count = N) (ht : b.tail = b.head) (hh : b.head < N) :
    ∃ x b1, b.subscript 0 = .ok x ∧ b.push_back v = .ok (some x, b1) ∧
      b1.head = (b.head + 1) % N ∧ b1.count = N ∧
      (∀ i, i < N - 1 → b1.subscript i = b.subscript (i + 1)) ∧
      b1.subscript (N - 1) = .ok v := by
  have htl : b.tail < N := by omega
  have hnc : ¬ b.count < N := by omega
  have hx : (⟨(b.head + 0) % N, Nat.mod_lt _ hN⟩ : Fin N) = ⟨b.tail, htl⟩ := by
    apply Fin.ext
    simp [ht, Nat.mod_eq_of_lt hh]
  refine ⟨b.buffer ⟨b.tail, htl⟩, _, ?_, push_back_of_full b v htl hnc, rfl, hc, ?_, ?_⟩
  · rw [subscript_of_lt hN b 0 (by omega), hx]
  · intro i hi
    rw [subscript_of_lt hN b (i + 1) (by omega), subscript_of_lt hN _ i (by show i < b.count; omega)]
    have hm : ((b.head + 1) % N + i) % N = (b.head + (i + 1)) % N := by
      rw [Nat.mod_add_mod]; congr 1; omega
    have hne : (b.head + (i + 1)) % N ≠ b.tail := by
      intro he
      have h0 : (b.head + (i + 1)) % N = (b.head + 0) % N := by
        rw [he, ht, Nat.add_zero, Nat.mod_eq_of_lt hh]
      have := slot_injective (by omega) hN h0
      omega
    simp only [hm, if_neg hne]
  · rw [subscript_of_lt hN _ (N - 1) (by show N - 1 < b.count; omega)]
    have hm : ((b.head + 1) % N + (N - 1)) % N = b.tail := by
      rw [Nat.mod_add_mod, show b.head + 1 + (N - 1) = b.head + N by omega,
        Nat.add_mod_right, Nat.mod_eq_of_lt hh, ht]
    simp only [hm, if_true]

theorem push_back_full_shifts_witness :
    (0 < 3 ∧ after_2468.count = 3 ∧ after_2468.tail = after_2468.head ∧ after_2468.head < 3) ∧
    ∃ x b1, after_2468.subscript 0 = .ok x ∧ after_2468.push_back 10 = .ok (some x, b1) ∧
      b1.head = (after_2468.head + 1) % 3 ∧ b1.count = 3 ∧
      (∀ i, i < 3 - 1 → b1.subscript i = after_2468.subscript (i + 1)) ∧
      b1.subscript (3 - 1) = .ok 10 :=
  ⟨⟨by decide, rfl, rfl, by decide⟩,
    push_back_full_shifts (by decide) after_2468 10 rfl rfl (by decide)⟩

/-- C14: insertion into a non-full buffer is a pure append.  For every `N > 0`
and every state with `count < N`, `head < N` and `tail == (head + count) mod N`,
`push_back(v)` returns no evicted value, leaves `head` unchanged, increases
`size()` by exactly 1, leaves `operator[](i)` unchanged for every `i` below the
old size, and makes `operator[](old size) == v`. -/
theorem push_back_not_full_appends {T : Type} {N : Nat} (hN : 0 < N) (b : CircularBuffer T N)
    (v : T) (hc : b.count < N) (_hh : b.head < N) (ht : b.tail = (b.head + b.count) % N) :
    ∃ b1, b.push_back v = .ok (none, b1) ∧ b1.head = b.head ∧ b1.size = b.size + 1 ∧
      (∀ i, i < b.size → b1.subscript i = b.subscript i) ∧
      b1.subscript b.size = .ok v := by
  have htl : b.tail < N := by rw [ht]; exact Nat.mod_lt _ hN
  refine ⟨_, push_back_of_not_full b v htl hc, rfl, rfl, ?_, ?_⟩
  · intro i hi
    have hi2 : i < b.count := hi
    rw [subscript_of_lt hN b i hi2, subscript_of_lt hN _ i (by show i < b.count + 1; omega)]
    have hne : (b.head + i) % N ≠ b.tail := by
      intro he
      rw [ht] at he
      have := slot_injective (by omega) hc he
      omega
    simp only [if_neg hne]
  · rw [subscript_of_lt hN _ b.size (by show b.count < b.count + 1; omega)]
    have hm : (b.head + b.size) % N = b.tail := ht.symm
    simp only [hm, if_true]

theorem push_back_not_full_appends_witness :
    (0 < 3 ∧ one_of_three.count < 3 ∧ one_of_three.head < 3 ∧
      one_of_three.tail = (one_of_three.head + one_of_three.count) % 3) ∧
    ∃ b1, one_of_three.push_back 5 = .ok (none, b1) ∧ b1.head = one_of_three.head ∧
      b1.size = one_of_three.size + 1 ∧
      (∀ i, i < one_of_three.size → b1.subscript i = one_of_three.subscript i) ∧
      b1.subscript one_of_three.size = .ok 5 :=
  ⟨⟨by decide, by decide, by decide, rfl⟩,
    push_back_not_full_appends (by decide) one_of_three 5 (by decide) (by decide) rfl⟩

/-- The index facts that follow from `Holds`. -/
theorem holds_indices {T : Type} {N : Nat} (hN : 0 < N) {b : CircularBuffer T N} {H : List T}
    (hb : Holds b H) :
    b.head < N ∧ b.tail < N ∧ b.count ≤ N ∧ b.tail = (b.head + b.count) % N ∧
      (b.count < N → b.head = 0) ∧ (b.count = N → b.tail = b.head) ∧
      (b.count = 0 → b.head = b.tail) := by
  obtain ⟨hc, ht, hh, _⟩ := hb
  have hle : b.count ≤ H.length := by rw [hc]; exact Nat.min_le_left _ _
  have hcN : b.count ≤ N := by rw [hc]; exact Nat.min_le_right _ _
  have hhN : b.head < N := by rw [hh]; exact Nat.mod_lt _ hN
  have hsum : b.tail = (b.head + b.count) % N := by
    rw [ht, hh, Nat.mod_add_mod, Nat.sub_add_cancel hle]
  refine ⟨hhN, by rw [ht]; exact Nat.mod_lt _ hN, hcN, hsum, ?_, ?_, ?_⟩
  · intro hlt
    have : b.count = H.length := by rw [hc] at hlt ⊢; omega
    rw [hh, this, Nat.sub_self, Nat.zero_mod]
  · intro hfull
    rw [hsum, hfull, Nat.add_mod_right]
    exact Nat.mod_eq_of_lt hhN
  · intro h0
    rw [hsum, h0, Nat.add_zero]
    exact (Nat.mod_eq_of_lt hhN).symm

/-- C15: the documented index invariants hold in every reachable state.  For
every `N > 0` and every list `L`, pushing `L` into a freshly constructed buffer
returns, and in the state reached `head < N`, `tail < N`, `count ≤ N`,
`count == N` implies `tail == head`, and `count == 0` implies `head == tail`. -/
theorem reachable_documented_invariants {T : Type} {N : Nat} (hN : 0 < N) (L : List T)
    (buffer0 : Fin N → T) (sum0 : ℚ) :
    ∃ outs b, push_all (CircularBuffer.new buffer0 sum0) L = .ok (outs, b) ∧
      0 ≤ b.head ∧ b.head < N ∧ 0 ≤ b.tail ∧ b.tail < N ∧ 0 ≤ b.count ∧ b.count ≤ N ∧
      (b.count = N → b.tail = b.head) ∧ (b.count = 0 → b.head = b.tail) := by
  obtain ⟨outs, b, h, hb, _, _, _⟩ :=
    push_all_holds hN L (CircularBuffer.new buffer0 sum0) [] (holds_new buffer0 sum0)
  obtain ⟨h1, h2, h3, _, _, h6, h7⟩ := holds_indices hN hb
  exact ⟨outs, b, h, Nat.zero_le _, h1, Nat.zero_le _, h2, Nat.zero_le _, h3, h6, h7⟩

theorem reachable_documented_invariants_witness :
    0 < 3 ∧ ∃ outs b,
      push_all (CircularBuffer.new (fun _ => (0 : Int)) 0 : CircularBuffer Int 3) [2, 4, 6, 8]
        = .ok (outs, b) ∧
      0 ≤ b.head ∧ b.head < 3 ∧ 0 ≤ b.tail ∧ b.tail < 3 ∧ 0 ≤ b.count ∧ b.count ≤ 3 ∧
      (b.count = 3 → b.tail = b.head) ∧ (b.count = 0 → b.head = b.tail) :=
  ⟨by decide, reachable_documented_invariants (by decide) [2, 4, 6, 8] (fun _ => 0) 0⟩

/-- C16 fails on the code: `push_back` never writes `sum`.  With `N = 3`, pushing
2 into a freshly constructed (non-full) buffer evicts nothing and leaves `sum` at
the value `sum0` it had, not `sum0 + 2`; pushing 10 into the full buffer that
holds 4, 6, 8 evicts 4 and leaves `sum` at `sum0`, not `sum0 - 4 + 10`. -/
theorem push_back_leaves_sum_unwritten (sum0 : ℚ) :
    (∃ b1, (CircularBuffer.new (fun _ => (0 : Int)) sum0 : CircularBuffer Int 3).push_back 2
        = .ok (none, b1) ∧ b1.sum = sum0 ∧ b1.sum ≠ sum0 + 2) ∧
    (∃ b1, ({ after_2468 with sum := sum0 } : CircularBuffer Int 3).push_back 10
        = .ok (some 4, b1) ∧ b1.sum = sum0 ∧ b1.sum ≠ sum0 - 4 + 10) := by
  refine ⟨⟨_, rfl, rfl, ?_⟩, ⟨_, rfl, rfl, ?_⟩⟩
  · show sum0 ≠ sum0 + 2
    intro h
    linarith
  · show sum0 ≠ sum0 - 4 + 10
    intro h
    linarith

/-- C17: logical-to-physical mapping.  For every buffer state with `N > 0`,
`head < N` and `count ≤ N` (the states in which the sum `head + i` does not wrap,
every reachable state among them) and every index `i < size()`, the position
`(head + i) mod N` is `< N` and `operator[](i)` returns the element of
`get_underlying_array()` at that position; and after the values of a list `L`
(`m = |L|` pushes) are pushed into a freshly constructed buffer, the state
reached is such a state, `operator[]` reads the raw array in this way, and the
raw array holds the `k`-th pushed value at physical slot `k mod N` for every `k`
with `m - min(m, N) ≤ k < m`. -/
theorem subscript_reads_physical_slot {T : Type} {N : Nat} (hN : 0 < N) (b : CircularBuffer T N)
    (_hh : b.head < N) (_hc : b.count ≤ N) (L : List T) (buffer0 : Fin N → T) (sum0 : ℚ) :
    (∀ i, i < b.size → (b.head + i) % N < N ∧
      b.subscript i = .ok (b.get_underlying_array ⟨(b.head + i) % N, Nat.mod_lt _ hN⟩)) ∧
    ∃ outs b1, push_all (CircularBuffer.new buffer0 sum0) L = .ok (outs, b1) ∧
      b1.head < N ∧ b1.count ≤ N ∧
      (∀ i, i < b1.size →
        b1.subscript i = .ok (b1.get_underlying_array ⟨(b1.head + i) % N, Nat.mod_lt _ hN⟩)) ∧
      ∀ k, L.length - min L.length N ≤ k → k < L.length →
        L[k]? = some (b1.get_underlying_array ⟨k % N, Nat.mod_lt _ hN⟩) := by
  refine ⟨fun i hi => ⟨Nat.mod_lt _ hN, subscript_of_lt hN b i hi⟩, ?_⟩
  obtain ⟨outs, b1, h, hb, _, _, _⟩ :=
    push_all_holds hN L (CircularBuffer.new buffer0 sum0) [] (holds_new buffer0 sum0)
  rw [List.nil_append] at hb
  obtain ⟨h1, _, h3, _, _, _, _⟩ := holds_indices hN hb
  refine ⟨outs, b1, h, h1, h3, fun i hi => subscript_of_lt hN b1 i hi, fun k hk1 hk2 => ?_⟩
  rw [← hb.count_eq] at hk1
  exact hb.slot k hk1 hk2 (Nat.mod_lt _ hN)

theorem subscript_reads_physical_slot_witness :
    (0 < 3 ∧ after_2468.head < 3 ∧ after_2468.count ≤ 3) ∧
    ((∀ i, i < after_2468.size → (after_2468.head + i) % 3 < 3 ∧
      after_2468.subscript i =
        .ok (after_2468.get_underlying_array ⟨(after_2468.head + i) % 3, Nat.mod_lt _ (by decide)⟩)) ∧
    ∃ outs b1,
      push_all (CircularBuffer.new (fun _ => (0 : Int)) 0 : CircularBuffer Int 3) [2, 4, 6, 8]
        = .ok (outs, b1) ∧
      b1.head < 3 ∧ b1.count ≤ 3 ∧
      (∀ i, i < b1.size →
        b1.subscript i = .ok (b1.get_underlying_array ⟨(b1.head + i) % 3, Nat.mod_lt _ (by decide)⟩)) ∧
      ∀ k, ([2, 4, 6, 8] : List Int).length - min ([2, 4, 6, 8] : List Int).length 3 ≤ k →
        k < ([2, 4, 6, 8] : List Int).length →
        ([2, 4, 6, 8] : List Int)[k]? =
          some (b1.get_underlying_array ⟨k % 3, Nat.mod_lt _ (by decide)⟩)) :=
  ⟨⟨by decide, by decide, by decide⟩,
    subscript_reads_physical_slot (by decide) after_2468 (by decide) (by decide)
      [2, 4, 6, 8] (fun _ => 0) 0⟩

/-- With capacity 1 the documented invariants are preserved by `push_back`: they
force `head == tail == 0`, and `(0 + 1) mod 1` is 0 again. -/
theorem documented_preserved_capacity_one {T : Type} (b : CircularBuffer T 1) (v : T)
    (hb : documented_invariants b) :
    ∃ out b1, b.push_back v = .ok (out, b1) ∧ documented_invariants b1 := by
  obtain ⟨hh, ht, hc, _, _⟩ := hb
  have hh0 : b.head = 0 := by omega
  have ht0 : b.tail = 0 := by omega
  by_cases hlt : b.count < 1
  · refine ⟨_, _, push_back_of_not_full b v ht hlt, ?_⟩
    have hc0 : b.count = 0 := by omega
    refine ⟨by show b.head < 1; omega, by show (b.tail + 1) % 1 < 1; omega,
      by show b.count + 1 ≤ 1; omega, fun _ => ?_, fun h => ?_⟩
    · show (b.tail + 1) % 1 = b.head
      omega
    · have : b.count + 1 = 0 := h
      omega
  · refine ⟨_, _, push_back_of_full b v ht hlt, ?_⟩
    refine ⟨by show (b.head + 1) % 1 < 1; omega, by show (b.tail + 1) % 1 < 1; omega, hc,
      fun _ => ?_, fun _ => ?_⟩
    · show (b.tail + 1) % 1 = (b.head + 1) % 1
      omega
    · show (b.head + 1) % 1 = (b.tail + 1) % 1
      omega

/-- C18 as stated fails at `N = 1`: there the documented invariants alone are
preserved by `push_back`.  The freshly constructed buffer satisfies them and so
does the state after a `push_back`, and no state of a buffer of capacity 1
satisfies them while the state after a `push_back` does not. -/
theorem documented_invariants_inductive_at_one :
    (documented_invariants (CircularBuffer.new (fun _ => (0 : Int)) 0 : CircularBuffer Int 1) ∧
      ∃ out b1,
        (CircularBuffer.new (fun _ => (0 : Int)) 0 : CircularBuffer Int 1).push_back 7
          = .ok (out, b1) ∧ documented_invariants b1) ∧
    ¬ ∃ (b : CircularBuffer Int 1) (v : Int) (out : Option Int) (b1 : CircularBuffer Int 1),
      documented_invariants b ∧ b.push_back v = .ok (out, b1) ∧ ¬ documented_invariants b1 := by
  have hnew :
      documented_invariants (CircularBuffer.new (fun _ => (0 : Int)) 0 : CircularBuffer Int 1) :=
    by decide
  refine ⟨⟨hnew, documented_preserved_capacity_one _ 7 hnew⟩, ?_⟩
  rintro ⟨b, v, out, b1, hb, hp, hn⟩
  obtain ⟨out2, b2, hp2, hb2⟩ := documented_preserved_capacity_one b v hb
  rw [hp] at hp2
  cases hp2
  exact hn hb2

/-- C18, amended: the implicit stronger invariant.  For every `N > 0`: in every
state reached from the constructor by `push_back` calls,
`tail == (head + count) mod N`, `head == 0` whenever `count < N`, and `head < N`;
from every state that satisfies this invariant with `head < N`, `push_back`
returns and the state after it satisfies both again.  The documented invariants
alone are not preserved when `N ≥ 2`: the state with `head == tail == 0` and
`count == N - 1` satisfies them and the state after one `push_back` does not.
For `N == 1` the documented invariants alone are preserved too. -/
theorem ring_invariant_inductive {T : Type} {N : Nat} (hN : 0 < N) (buffer0 : Fin N → T)
    (sum0 : ℚ) :
    (∀ L : List T, ∃ outs b, push_all (CircularBuffer.new buffer0 sum0) L = .ok (outs, b) ∧
      ring_invariant b ∧ b.head < N) ∧
    (∀ (b : CircularBuffer T N) (v : T), ring_invariant b → b.head < N →
      ∃ out b1, b.push_back v = .ok (out, b1) ∧ ring_invariant b1 ∧ b1.head < N) ∧
    (2 ≤ N → ∀ v : T, ∃ out b1,
      documented_invariants
        ({ buffer := buffer0, head := 0, tail := 0, count := N - 1, sum := sum0 } :
          CircularBuffer T N) ∧
      ({ buffer := buffer0, head := 0, tail := 0, count := N - 1, sum := sum0 } :
          CircularBuffer T N).push_back v = .ok (out, b1) ∧
      ¬ documented_invariants b1) ∧
    (N = 1 → ∀ (b : CircularBuffer T N) (v : T), documented_invariants b →
      ∃ out b1, b.push_back v = .ok (out, b1) ∧ documented_invariants b1) := by
  refine ⟨fun L => ?_, fun b v hb hhN => ?_, fun h2 v => ?_, fun h1 => ?_⟩
  · obtain ⟨outs, b, h, hb, _, _, _⟩ :=
      push_all_holds hN L (CircularBuffer.new buffer0 sum0) [] (holds_new buffer0 sum0)
    obtain ⟨h1, _, _, h4, h5, _, _⟩ := holds_indices hN hb
    exact ⟨outs, b, h, ⟨h4, h5⟩, h1⟩
  · obtain ⟨ht, hh⟩ := hb
    have htl : b.tail < N := by rw [ht]; exact Nat.mod_lt _ hN
    by_cases hc : b.count < N
    · refine ⟨_, _, push_back_of_not_full b v htl hc, ⟨?_, fun _ => hh hc⟩, hhN⟩
      show (b.tail + 1) % N = (b.head + (b.count + 1)) % N
      rw [ht, Nat.mod_add_mod]
      rfl
    · refine ⟨_, _, push_back_of_full b v htl hc, ⟨?_, fun hlt => absurd hlt hc⟩,
        Nat.mod_lt _ hN⟩
      show (b.tail + 1) % N = ((b.head + 1) % N + b.count) % N
      rw [ht, Nat.mod_add_mod, Nat.mod_add_mod]
      congr 1
      omega
  · have hc : N - 1 < N := by omega
    refine ⟨_, _, ?_, push_back_of_not_full _ v (by show 0 < N; exact hN) hc, ?_⟩
    · exact ⟨hN, hN, Nat.le_of_lt hc, fun h => absurd h (Nat.ne_of_lt hc),
        fun _ => rfl⟩
    · rintro ⟨_, _, _, h4, _⟩
      have h1 : (0 + 1) % N = 0 := h4 (by show N - 1 + 1 = N; omega)
      rw [Nat.zero_add, Nat.mod_eq_of_lt (by omega)] at h1
      omega
  · subst h1
    exact fun b v hb => documented_preserved_capacity_one b v hb

theorem ring_invariant_inductive_witness :
    0 < 3 ∧
    ((∀ L : List Int, ∃ outs b,
      push_all (CircularBuffer.new (fun _ => (0 : Int)) 0 : CircularBuffer Int 3) L
        = .ok (outs, b) ∧ ring_invariant b ∧ b.head < 3) ∧
    (∀ (b : CircularBuffer Int 3) (v : Int), ring_invariant b → b.head < 3 →
      ∃ out b1, b.push_back v = .ok (out, b1) ∧ ring_invariant b1 ∧ b1.head < 3) ∧
    (2 ≤ 3 → ∀ v : Int, ∃ out b1,
      documented_invariants
        ({ buffer := fun _ => 0, head := 0, tail := 0, count := 3 - 1, sum := 0 } :
          CircularBuffer Int 3) ∧
      ({ buffer := fun _ => 0, head := 0, tail := 0, count := 3 - 1, sum := 0 } :
          CircularBuffer Int 3).push_back v = .ok (out, b1) ∧
      ¬ documented_invariants b1) ∧
    (3 = 1 → ∀ (b : CircularBuffer Int 3) (v : Int), documented_invariants b →
      ∃ out b1, b.push_back v = .ok (out, b1) ∧ documented_invariants b1)) :=
  ⟨by decide, ring_invariant_inductive (by decide) (fun _ => 0) 0⟩

/-- An iterator differs from itself never: the loop test `it != last` is false
when both hold the same owner and index. -/
theorem iterator_ne_self (it : CircularBuffer.iterator) : it.ne it = false := by
  simp [CircularBuffer.iterator.ne, CircularBuffer.iterator.eq]

/-- Two iterators of one buffer with different indices differ. -/
theorem iterator_ne_of_index_ne (self i j : Nat) (h : i ≠ j) :
    CircularBuffer.iterator.ne { owner := self, index := i } { owner := self, index := j }
      = true := by
  simp [CircularBuffer.iterator.ne, CircularBuffer.iterator.eq, h]

/-- The loop stops at once, with nothing visited, when started at `last`. -/
theorem walk_from_last {T : Type} {N : Nat} (b : CircularBuffer T N)
    (last : CircularBuffer.iterator) (fuel : Nat) : walk b last fuel last = some (.ok []) := by
  cases fuel <;> simp [walk, iterator_ne_self]

/-- The loop over a buffer that holds `L` and is not full: started at index
`i ≤ |L|` with fuel for the remaining `|L| - i` steps, it visits `L[i], ...` up
to the last value and stops at index `|L|`. -/
theorem walk_not_full {T : Type} {N : Nat} (hN : 0 < N) {b : CircularBuffer T N} {L : List T}
    (hb : Holds b L) (hlt : L.length < N) (self : Nat) :
    ∀ fuel i, i ≤ L.length → L.length - i ≤ fuel →
      walk b { owner := self, index := L.length } fuel { owner := self, index := i }
        = some (.ok (L.drop i)) := by
  have hcount : b.count = L.length := by rw [hb.count_eq]; omega
  intro fuel
  induction fuel with
  | zero =>
    intro i hi hf
    have he : i = L.length := by omega
    subst he
    rw [walk_from_last, List.drop_length]
  | succ n ih =>
    intro i hi hf
    by_cases he : i = L.length
    · subst he
      rw [walk_from_last, List.drop_length]
    · have hi2 : i < L.length := by omega
      obtain ⟨x, hx, hxL⟩ := subscript_holds hN hb i (by omega)
      rw [hcount, Nat.sub_self, Nat.zero_add, List.getElem?_eq_getElem hi2] at hxL
      have hxe : L[i] = x := Option.some.inj hxL
      have hinc : (i + 1) % N = i + 1 := Nat.mod_eq_of_lt (by omega)
      have hrec := ih (i + 1) (by omega) (by omega)
      rw [List.drop_eq_getElem_cons hi2, hxe]
      simp only [walk, iterator_ne_of_index_ne self i L.length he, if_true,
        CircularBuffer.iterator.deref, hx, CircularBuffer.iterator.incr, if_pos hN, hinc, hrec]

/-- C19: the behaviour of `begin()` and `end()`.  For every `N > 0` and every
buffer reached from the constructor by `push_back` calls, `begin()` holds index
`head` and `end()` holds index `(head + count) mod N`.  When `size() == N` the
two iterators compare equal and the loop from `begin()` to `end()` visits no
element.  When `size() < N`, `head` is 0, the loop (given fuel for `size()`
steps) visits exactly `size()` elements, the iterator at step `i` holds index
`i` and steps to `i + 1`, and its dereference, the bounds-checked `operator[]`
at the iterator's index, returns `operator[](i)` without raising. -/
theorem begin_end_loop {T : Type} {N : Nat} (hN : 0 < N) (L : List T) (buffer0 : Fin N → T)
    (sum0 : ℚ) (self : Nat) :
    ∃ outs b, push_all (CircularBuffer.new buffer0 sum0) L = .ok (outs, b) ∧
      b.begin self = { owner := self, index := b.head } ∧
      b.end self = .ok { owner := self, index := (b.head + b.count) % N } ∧
      (b.size = N →
        (b.begin self).eq { owner := self, index := (b.head + b.count) % N } = true ∧
        ∀ fuel, iterate b self fuel = some (.ok [])) ∧
      (b.size < N →
        b.head = 0 ∧
        ∃ vs : List T, vs.length = b.size ∧
          (∀ fuel, b.size ≤ fuel → iterate b self fuel = some (.ok vs)) ∧
          ∀ i, i < b.size → ∃ x, vs[i]? = some x ∧ b.subscript i = .ok x ∧
            CircularBuffer.iterator.deref { owner := self, index := i } b = .ok x ∧
            CircularBuffer.iterator.incr N { owner := self, index := i }
              = .ok { owner := self, index := i + 1 }) := by
  obtain ⟨outs, b, h, hb, _, _, _⟩ :=
    push_all_holds hN L (CircularBuffer.new buffer0 sum0) [] (holds_new buffer0 sum0)
  rw [List.nil_append] at hb
  obtain ⟨hhN, _, _, htail, hzero, hfull, _⟩ := holds_indices hN hb
  have hend : b.end self = .ok { owner := self, index := (b.head + b.count) % N } := by
    simp only [CircularBuffer.end, if_pos hN]
  refine ⟨outs, b, h, rfl, hend, ?_, ?_⟩
  · intro hsz
    have hidx : (b.head + b.count) % N = b.head := by rw [← htail]; exact hfull hsz
    refine ⟨?_, fun fuel => ?_⟩
    · simp [CircularBuffer.iterator.eq, CircularBuffer.begin, hidx]
    · simp only [iterate, hend, hidx, CircularBuffer.begin]
      exact walk_from_last b _ fuel
  · intro hsz
    have hlt : b.count < N := hsz
    have hcount : b.count = L.length := by rw [hb.count_eq] at hlt ⊢; omega
    have hLN : L.length < N := by omega
    have hh0 : b.head = 0 := hzero hlt
    have hidx : (b.head + b.count) % N = L.length := by
      rw [hh0, Nat.zero_add, hcount]; exact Nat.mod_eq_of_lt hLN
    refine ⟨hh0, L, hcount.symm, fun fuel hf => ?_, fun i hi => ?_⟩
    · have hf2 : L.length - 0 ≤ fuel := by
        have : b.count ≤ fuel := hf
        omega
      have hw := walk_not_full hN hb hLN self fuel 0 (Nat.zero_le _) hf2
      rw [List.drop_zero] at hw
      simp only [iterate, hend]
      rw [hidx]
      simp only [CircularBuffer.begin]
      rw [hh0]
      exact hw
    · have hi2 : i < b.count := hi
      obtain ⟨x, hx, hxL⟩ := subscript_holds hN hb i hi2
      rw [hcount, Nat.sub_self, Nat.zero_add] at hxL
      refine ⟨x, hxL, hx, hx, ?_⟩
      have hinc : (i + 1) % N = i + 1 := Nat.mod_eq_of_lt (by omega)
      simp only [CircularBuffer.iterator.incr, if_pos hN, hinc]

theorem begin_end_loop_witness :
    0 < 3 ∧ ∃ outs b,
      push_all (CircularBuffer.new (fun _ => (0 : Int)) 0 : CircularBuffer Int 3) [2, 4]
        = .ok (outs, b) ∧
      b.begin 0 = { owner := 0, index := b.head } ∧
      b.end 0 = .ok { owner := 0, index := (b.head + b.count) % 3 } ∧
      (b.size = 3 →
        (b.begin 0).eq { owner := 0, index := (b.head + b.count) % 3 } = true ∧
        ∀ fuel, iterate b 0 fuel = some (.ok [])) ∧
      (b.size < 3 →
        b.head = 0 ∧
        ∃ vs : List Int, vs.length = b.size ∧
          (∀ fuel, b.size ≤ fuel → iterate b 0 fuel = some (.ok vs)) ∧
          ∀ i, i < b.size → ∃ x, vs[i]? = some x ∧ b.subscript i = .ok x ∧
            CircularBuffer.iterator.deref { owner := 0, index := i } b = .ok x ∧
            CircularBuffer.iterator.incr 3 { owner := 0, index := i }
              = .ok { owner := 0, index := i + 1 }) :=
  ⟨by decide, begin_end_loop (by decide) [2, 4] (fun _ => 0) 0 0⟩
